import Mathlib

/-!
Shallow embedding of the leaf time-series linking core of
`plantcv/plantcv/time_series/link_utilities.py`.

Conventions of the embedding:
* numpy float values flowing through the overlap computation are modelled
  exactly: an entry is either a rational number or the NaN produced by the
  unguarded `np.divide` on a zero union (`IoUVal`).  Float arithmetic on the
  mask counts is exact integer arithmetic, so rationals are faithful.
* A numpy mask array of shape `[H, W, n]` is a `MaskSet`: the spatial shape
  `h, w` plus the `n` masks, each flattened to a list of `h * w` pixel
  values (numpy's `reshape(-1, n)` flattens exactly like this).
* Code that raises (the `np.max` reduction over an empty axis, `np.dot` on
  incompatible shapes, `scipy.optimize.linear_sum_assignment` on a matrix
  containing NaN) is modelled by returning `none`.
* `scipy.optimize.linear_sum_assignment(maximize=True)` on a finite matrix is
  modelled by an executable brute-force maximum-weight matching of size
  `min(rows, cols)` (`bestMatching`): every property proved below holds for
  any optimal matching, and every concrete input evaluated in a theorem has a
  unique optimal matching.
-/

namespace PlantCV

/-- Value of a numpy float as produced by the overlap computation: either an
exact rational or the NaN produced by the unguarded `0/0` in `np.divide`. -/
inductive IoUVal where
  | nan : IoUVal
  | val : ℚ → IoUVal
deriving DecidableEq, Repr

/-- Test for the NaN value. -/
def isNan : IoUVal → Bool
  | IoUVal.nan => true
  | IoUVal.val _ => false

/-- Underlying rational of a non-NaN value (junk `0` on NaN; only applied in
contexts where NaN has been ruled out by the scipy validity check). -/
def toQ : IoUVal → ℚ
  | IoUVal.nan => 0
  | IoUVal.val q => q

/-- numpy comparison `x < t` with a float scalar: NaN compares `False`. -/
def npLt : IoUVal → ℚ → Bool
  | IoUVal.nan, _ => false
  | IoUVal.val x, t => decide (x < t)

/-- numpy pairwise maximum as used by the `np.max` reduction: NaN propagates. -/
def npMax : IoUVal → IoUVal → IoUVal
  | IoUVal.nan, _ => IoUVal.nan
  | _, IoUVal.nan => IoUVal.nan
  | IoUVal.val x, IoUVal.val y => IoUVal.val (max x y)

/-- A per-frame numpy mask array of shape `[h, w, n]`: `masks` lists the `n`
instance masks, each flattened to its `h * w` pixel values. -/
structure MaskSet where
  h : Nat
  w : Nat
  masks : List (List ℚ)
deriving DecidableEq, Repr

/-- The ndarray invariant: every mask holds exactly `h * w` pixels. -/
def MaskSet.wf (m : MaskSet) : Prop := ∀ mk ∈ m.masks, mk.length = m.h * m.w

/-- `np.sum(mask > .5)`: number of pixels binarized to one. -/
def countOn (mk : List ℚ) : Nat := mk.countP (fun x => decide (mkRat 1 2 < x))

/-- `np.dot((mask2 > .5), (mask1 > .5))`: number of pixels binarized to one in
both masks. -/
def countBoth (mk1 mk2 : List ℚ) : Nat :=
  (mk1.zip mk2).countP (fun p => decide (mkRat 1 2 < p.1) && decide (mkRat 1 2 < p.2))

/-- `_compute_overlaps_masks(masks1, masks2)` (link_utilities.py:143-165).
If either set is empty, numpy returns `np.zeros((n1, n2))` (one dimension
zero, hence no entries).  Otherwise each mask is binarized with `> .5`; the
`np.dot` raises `ValueError` when the flattened pixel counts disagree
(modelled `none`); the final `np.divide(intersections, unions)` yields NaN on
the `0/0` of two simultaneously-empty masks. -/
def _compute_overlaps_masks (masks1 masks2 : MaskSet) : Option (List (List IoUVal)) :=
  if masks1.masks.length = 0 ∨ masks2.masks.length = 0 then
    some (List.replicate masks1.masks.length [])
  else if masks1.h * masks1.w ≠ masks2.h * masks2.w then
    none
  else
    some (masks1.masks.map (fun mi =>
      masks2.masks.map (fun mj =>
        let inter := countBoth mi mj
        let union := countOn mi + countOn mj - inter
        if union = 0 then IoUVal.nan else IoUVal.val (mkRat (inter : Int) union))))

/-- All maximal matchings of rows `as` into columns `bs` (each row of `as`
paired with a distinct element of `bs`), in `(row, col)` pairs. -/
def injections : List Nat → List Nat → List (List (Nat × Nat))
  | [], _ => [[]]
  | a :: as, bs => bs.flatMap (fun b => (injections as (bs.erase b)).map (fun M => (a, b) :: M))

/-- All matchings of size `min n0 m` between rows `0..n0-1` and columns
`0..m-1`. -/
def matchingCandidates (n0 m : Nat) : List (List (Nat × Nat)) :=
  if n0 ≤ m then injections (List.range n0) (List.range m)
  else (injections (List.range m) (List.range n0)).map (fun M => M.map (fun p => (p.2, p.1)))

/-- Total weight of a matching over the cost matrix `Q`. -/
def matchScore (Q : List (List ℚ)) (M : List (Nat × Nat)) : ℚ :=
  M.foldl (fun s p => s + (Q.getD p.1 []).getD p.2 0) 0

/-- Model of `scipy.optimize.linear_sum_assignment(Q, maximize=True)` on a
finite (NaN-free) matrix: a maximum-total-weight matching of size
`min(rows, cols)`, found by brute force. -/
def bestMatching (Q : List (List ℚ)) : List (Nat × Nat) :=
  match matchingCandidates Q.length (Q.headD []).length with
  | [] => []
  | c :: cs => cs.foldl (fun best cand => if matchScore Q best < matchScore Q cand then cand else best) c

/-- Column maximum `np.max(weight, axis=0)[j]` of an overlap matrix (NaN
propagates through the reduction).  Only evaluated with at least one row; the
empty case returns junk `val 0`. -/
def colMax (W : List (List IoUVal)) (j : Nat) : IoUVal :=
  match W.map (fun row => row.getD j (IoUVal.val 0)) with
  | [] => IoUVal.val 0
  | x :: xs => xs.foldl npMax x

/-- `avail_col` (link_utilities.py:333-334): the columns of `range(n1)` that
survive the pre-filter, i.e. those whose column maximum is not `< τ`
(numpy's `<` is `False` on NaN, so a NaN column survives). -/
def availCols (τ : ℚ) (n1 : Nat) (W : List (List IoUVal)) : List Nat :=
  (List.range n1).filter (fun j => ! npLt (colMax W j) τ)

/-- `weight_ = np.delete(weight, idx_col, 1)` (link_utilities.py:335-337):
each row restricted to the surviving columns, order preserved. -/
def filteredWeight (τ : ℚ) (n1 : Nat) (W : List (List IoUVal)) : List (List IoUVal) :=
  W.map (fun row => (availCols τ n1 W).map (fun j => row.getD j (IoUVal.val 0)))

/-- The filtered weight matrix as the rational-valued cost matrix handed to
the assignment solver (only used after the NaN check has ruled out NaN). -/
def Qof (τ : ℚ) (n1 : Nat) (W : List (List IoUVal)) : List (List ℚ) :=
  (filteredWeight τ n1 W).map (fun row => row.map toQ)

/-- Body of `PlantData.linking` (link_utilities.py:330-342) as a pure function
of the threshold, the two frame leaf counts and the overlap matrix:
1. `none` when `np.max(weight, axis=0)` raises (zero rows, nonzero columns);
2. delete every column whose maximum similarity is `< τ`;
3. `none` when the filtered matrix still contains NaN (scipy raises
   `ValueError` on invalid numeric entries);
4. solve the maximum-weight assignment on the remaining columns;
5. accept a solver pair `(r, c)` only if `weight_[r, c] >= τ`, writing
   `link[r] = avail_col[c]` into the `-1`-initialized link vector. -/
def linkingCore (τ : ℚ) (n0 n1 : Nat) (W : List (List IoUVal)) : Option (List Int) :=
  if W.length = 0 ∧ 0 < n1 then none
  else if (filteredWeight τ n1 W).any (fun row => row.any isNan) then none
  else
    some ((bestMatching (Qof τ n1 W)).foldl
      (fun lk p =>
        if τ ≤ ((Qof τ n1 W).getD p.1 []).getD p.2 0 then
          lk.set p.1 (Int.ofNat ((availCols τ n1 W).getD p.2 0))
        else lk)
      (List.replicate n0 (-1 : Int)))

/-- The linking state of the `PlantData` object (link_utilities.py:178-234):
the loaded masks, the per-frame leaf counts, and the two per-pair result
structures `link_info` and `weights`.  A `weights` entry `none` stands for the
`-np.inf` the structure is initialized with; a stored overlap value would be
`some v`. -/
structure PlantData where
  masks : List MaskSet
  num_leaves : List Nat
  link_info : List (List Int)
  weights : List (List (List (Option IoUVal)))
deriving DecidableEq, Repr

/-- `PlantData.getmaxleaf` (link_utilities.py:239-242): fills `num_leaves`
with the per-frame mask counts. -/
def getmaxleaf (pd : PlantData) : PlantData :=
  { pd with num_leaves := pd.masks.map (fun m => m.masks.length) }

/-- `available_leaves[t] = np.array(range(0, num_leaves[t]))`
(link_utilities.py:317); never mutated afterwards. -/
def available_leaves (nl : List Nat) (t : Nat) : List Nat := List.range (nl.getD t 0)

/-- `PlantData.initialize_linking` (link_utilities.py:313-318): `link_info[i]`
is `-np.ones(num_leaves[i])` and `weights[i]` is
`-np.inf * np.ones((num_leaves[i], num_leaves[i+1]))` (the `-np.inf` fill is
the `none` entry). -/
def initialize_linking (pd : PlantData) : PlantData :=
  { pd with
    link_info := (List.range (pd.num_leaves.length - 1)).map
      (fun i => List.replicate (pd.num_leaves.getD i 0) (-1 : Int)),
    weights := (List.range (pd.num_leaves.length - 1)).map
      (fun i => List.replicate (pd.num_leaves.getD i 0)
        (List.replicate (pd.num_leaves.getD (i+1) 0) (none : Option IoUVal))) }

/-- `PlantData.linking(t0)` (link_utilities.py:320-342): compute the overlap
matrix of frames `t0` and `t0+1`, run the constrained assignment, and store
the link vector in `link_info[t0]`.  Note that the locally computed `weight`
matrix is never written to `self.weights`.  `none` models the exceptions
raised inside (`np.max` on an empty axis, `np.dot` shape mismatch, scipy on
NaN). -/
def linking (pd : PlantData) (t0 : Nat) : Option PlantData :=
  match _compute_overlaps_masks (pd.masks.getD t0 ⟨0, 0, []⟩)
      (pd.masks.getD (t0+1) ⟨0, 0, []⟩) with
  | none => none
  | some weight =>
    match linkingCore (mkRat 1 5) (available_leaves pd.num_leaves t0).length
        (available_leaves pd.num_leaves (t0+1)).length weight with
    | none => none
    | some link => some { pd with link_info := pd.link_info.set t0 link }

/-- The linking pass the spec describes: `linking(t0)` once per consecutive
frame pair `t0 in [0, T-1)`, in order. -/
def runLinking (pd : PlantData) : Option PlantData :=
  (List.range (pd.num_leaves.length - 1)).foldl
    (fun acc t0 => acc.bind (fun s => linking s t0)) (some pd)

/-- End-to-end linking pipeline on an ordered frame sequence. -/
def pipeline (frames : List MaskSet) : Option PlantData :=
  runLinking (initialize_linking (getmaxleaf
    { masks := frames, num_leaves := [], link_info := [], weights := [] }))

/-- `PlantData.getnumemergence` (link_utilities.py:248-250):
`num_emergence = np.ones(total_time) * init_nleaf` then
`num_emergence[1:] = np.diff(num_leaves)`. -/
def getnumemergence (nl : List Nat) : List Int :=
  let base := List.replicate nl.length ((nl.getD 0 0 : Nat) : Int)
  let diffs := (nl.zip nl.tail).map (fun p => ((p.2 : Nat) : Int) - ((p.1 : Nat) : Int))
  base.take 1 ++ diffs

/-- The newly emerged leaves of frame `t` as computed in `get_series`
(link_utilities.py:349, 356): all of `available_leaves[0]` at `t = 0`, and
`[i for i in available_leaves[t] if i not in link_info[t-1]]` for `t >= 1`. -/
def newLeaves (nl : List Nat) (li : List (List Int)) (t : Nat) : List Nat :=
  if t = 0 then available_leaves nl 0
  else (available_leaves nl t).filter (fun i => decide (Int.ofNat i ∉ li.getD (t-1) []))

/-- The `(emergence frame, leaf index)` pairs in identity order: frame-0
leaves first (identities `0..num_leaves[0]-1`), then per frame `t >= 1` in
ascending `t` the new leaves in ascending index, each receiving the next
identity from the running counter (link_utilities.py:346-366). -/
def emergences (nl : List Nat) (li : List (List Int)) : List (Nat × Nat) :=
  (List.range nl.length).flatMap (fun t => (newLeaves nl li t).map (fun j => (t, j)))

/-- The trajectory-filling loop `for t_ in range(t0+2, T)`
(link_utilities.py:376-381): stop at the first sentinel, otherwise chain
through `link_info[t_-1]`. -/
def chainLoop (li : List (List Int)) : List Int → List Nat → List Int
  | traj, [] => traj
  | traj, t :: rest =>
    if traj.getD (t - 1) (-1) < 0 then traj
    else chainLoop li
      (traj.set t ((li.getD (t - 1) []).getD (traj.getD (t - 1) (-1)).toNat (-1))) rest

/-- One identity's trajectory (link_utilities.py:370-381): a `-1`-filled
length-`T` vector with `traj[t0] = j0`, then (when `t0 < T-1`)
`traj[t0+1] = link_info[t0][j0]` and the chaining loop from `t0+2`. -/
def buildTraj (li : List (List Int)) (T t0 j0 : Nat) : List Int :=
  if t0 < T - 1 then
    chainLoop li (((List.replicate T (-1 : Int)).set t0 (Int.ofNat j0)).set (t0+1)
      ((li.getD t0 []).getD j0 (-1))) (List.range' (t0+2) (T - (t0+2)))
  else (List.replicate T (-1 : Int)).set t0 (Int.ofNat j0)

/-- `PlantData.get_series` (link_utilities.py:344-381), flattened: the list of
all identities' trajectories in identity order. -/
def get_series (nl : List Nat) (li : List (List Int)) : List (List Int) :=
  (emergences nl li).map (fun p => buildTraj li nl.length p.1 p.2)

/-- Spec-side emergence detection (§4.4 step 1-2): a leaf index `j` at frame
`t >= 1` is newly emerged iff no entry of `LinkVector[t-1]` equals `j`; at
`t = 0` every leaf index is newly emerged. -/
def specNewLeaves (nl : List Nat) (li : List (List Int)) (t : Nat) : List Nat :=
  if t = 0 then List.range (nl.getD 0 0)
  else (List.range (nl.getD t 0)).filter
    (fun j => (li.getD (t-1) []).all (fun x => decide (x ≠ Int.ofNat j)))

/-- Spec-side identity introduction order (§4.4 step 1-2): identities
`0..num_leaves[0]-1` at `t = 0` in leaf order, then at each later frame the
next unused identities in ascending leaf order. -/
def specEmergences (nl : List Nat) (li : List (List Int)) : List (Nat × Nat) :=
  (List.range nl.length).flatMap (fun t => (specNewLeaves nl li t).map (fun j => (t, j)))

/-- Spec-side trajectory value (§4.4 step 3): sentinel before `t0`, `j0` at
`t0`, and for `t > t0` the value `LinkVector[t-1][trajectory[t-1]]` until the
first sentinel, after which it stays sentinel. -/
def specTrajVal (li : List (List Int)) (t0 j0 : Nat) : Nat → Int
  | 0 => if t0 = 0 then Int.ofNat j0 else -1
  | t + 1 =>
    if t + 1 < t0 then -1
    else if t + 1 = t0 then Int.ofNat j0
    else
      let prev := specTrajVal li t0 j0 t
      if prev < 0 then -1 else (li.getD t []).getD prev.toNat (-1)

/-- Spec-side trajectory table: one length-`T` trajectory per identity, in
identity order. -/
def specSeries (nl : List Nat) (li : List (List Int)) : List (List Int) :=
  (specEmergences nl li).map (fun p => (List.range nl.length).map (specTrajVal li p.1 p.2))

/-! ### Properties of the brute-force assignment solver -/

lemma foldl_binary_choice {α : Type _} (g : α → α → α) (hg : ∀ a b, g a b = a ∨ g a b = b) :
    ∀ (l : List α) (a : α), l.foldl g a = a ∨ l.foldl g a ∈ l := by
  intro l
  induction l with
  | nil => intro a; exact Or.inl rfl
  | cons x xs ih =>
    intro a
    rcases ih (g a x) with h | h
    · rcases hg a x with h2 | h2
      · rw [List.foldl_cons, h, h2]; exact Or.inl rfl
      · rw [List.foldl_cons, h, h2]; exact Or.inr (List.mem_cons_self _ _)
    · exact Or.inr (List.mem_cons_of_mem _ (by rw [List.foldl_cons]; exact h))

lemma injections_fst : ∀ (as bs : List Nat) (M : List (Nat × Nat)),
    M ∈ injections as bs → M.map Prod.fst = as := by
  intro as
  induction as with
  | nil =>
    intro bs M hM
    simp only [injections, List.mem_singleton] at hM
    subst hM; rfl
  | cons a as ih =>
    intro bs M hM
    simp only [injections, List.mem_flatMap, List.mem_map] at hM
    obtain ⟨b, _, M', hM', rfl⟩ := hM
    simp [ih _ _ hM']

lemma injections_snd_mem : ∀ (as bs : List Nat) (M : List (Nat × Nat)),
    M ∈ injections as bs → ∀ p ∈ M, p.2 ∈ bs := by
  intro as
  induction as with
  | nil =>
    intro bs M hM
    simp only [injections, List.mem_singleton] at hM
    subst hM; intro p hp; cases hp
  | cons a as ih =>
    intro bs M hM p hp
    simp only [injections, List.mem_flatMap, List.mem_map] at hM
    obtain ⟨b, hb, M', hM', rfl⟩ := hM
    rcases List.mem_cons.mp hp with rfl | hp'
    · exact hb
    · exact List.mem_of_mem_erase (ih _ _ hM' p hp')

lemma injections_snd_nodup : ∀ (as bs : List Nat), bs.Nodup →
    ∀ M ∈ injections as bs, (M.map Prod.snd).Nodup := by
  intro as
  induction as with
  | nil =>
    intro bs _ M hM
    simp only [injections, List.mem_singleton] at hM
    subst hM; exact List.nodup_nil
  | cons a as ih =>
    intro bs hbs M hM
    simp only [injections, List.mem_flatMap, List.mem_map] at hM
    obtain ⟨b, hb, M', hM', rfl⟩ := hM
    rw [List.map_cons, List.nodup_cons]
    constructor
    · intro hmem
      obtain ⟨p, hp, hpb⟩ := List.mem_map.mp hmem
      have h2 : p.2 ∈ bs.erase b := injections_snd_mem _ _ _ hM' p hp
      exact ((hbs.mem_erase_iff.mp h2).1) hpb
    · exact ih _ (hbs.erase b) M' hM'

lemma matchingCandidates_spec (n0 m : Nat) (M : List (Nat × Nat))
    (hM : M ∈ matchingCandidates n0 m) :
    (M.map Prod.fst).Nodup ∧ (M.map Prod.snd).Nodup ∧ ∀ p ∈ M, p.1 < n0 ∧ p.2 < m := by
  unfold matchingCandidates at hM
  split at hM
  · have hf := injections_fst _ _ _ hM
    refine ⟨hf ▸ List.nodup_range n0, injections_snd_nodup _ _ (List.nodup_range m) M hM, ?_⟩
    intro p hp
    constructor
    · have : p.1 ∈ M.map Prod.fst := List.mem_map_of_mem Prod.fst hp
      rw [hf] at this
      exact List.mem_range.mp this
    · exact List.mem_range.mp (injections_snd_mem _ _ _ hM p hp)
  · obtain ⟨M', hM', rfl⟩ := List.mem_map.mp hM
    have hf := injections_fst _ _ _ hM'
    have hmapfst : (M'.map (fun p => ((p.2, p.1) : Nat × Nat))).map Prod.fst = M'.map Prod.snd := by
      simp [List.map_map]
    have hmapsnd : (M'.map (fun p => ((p.2, p.1) : Nat × Nat))).map Prod.snd = M'.map Prod.fst := by
      simp [List.map_map]
    refine ⟨?_, ?_, ?_⟩
    · rw [hmapfst]
      exact injections_snd_nodup _ _ (List.nodup_range n0) M' hM'
    · rw [hmapsnd, hf]
      exact List.nodup_range m
    · intro p hp
      obtain ⟨q, hq, rfl⟩ := List.mem_map.mp hp
      constructor
      · exact List.mem_range.mp (injections_snd_mem _ _ _ hM' q hq)
      · have : q.1 ∈ M'.map Prod.fst := List.mem_map_of_mem Prod.fst hq
        rw [hf] at this
        exact List.mem_range.mp this

lemma bestMatching_mem (Q : List (List ℚ)) :
    bestMatching Q = [] ∨ bestMatching Q ∈ matchingCandidates Q.length (Q.headD []).length := by
  cases h : matchingCandidates Q.length (Q.headD []).length with
  | nil => left; unfold bestMatching; rw [h]
  | cons c cs =>
    right
    have hb : bestMatching Q = cs.foldl
        (fun best cand => if matchScore Q best < matchScore Q cand then cand else best) c := by
      unfold bestMatching; rw [h]
    rw [hb]
    rcases foldl_binary_choice
        (fun best cand => if matchScore Q best < matchScore Q cand then cand else best)
        (fun a b => by dsimp only; split <;> simp) cs c with h2 | h2
    · rw [h2]; exact List.mem_cons_self _ _
    · exact List.mem_cons_of_mem _ h2

lemma bestMatching_spec (Q : List (List ℚ)) :
    ((bestMatching Q).map Prod.fst).Nodup ∧ ((bestMatching Q).map Prod.snd).Nodup ∧
      ∀ p ∈ bestMatching Q, p.1 < Q.length ∧ p.2 < (Q.headD []).length := by
  rcases bestMatching_mem Q with h | h
  · rw [h]; exact ⟨List.nodup_nil, List.nodup_nil, by intro p hp; cases hp⟩
  · exact matchingCandidates_spec _ _ _ h

/-! ### Generic lemmas about the link-vector write loop -/

section SetFold

variable (v : Nat × Nat → Int) (P : Nat × Nat → Prop) [DecidablePred P]

lemma foldl_ite_set_eq_filter : ∀ (M : List (Nat × Nat)) (lk : List Int),
    M.foldl (fun lk p => if P p then lk.set p.1 (v p) else lk) lk
      = (M.filter (fun p => decide (P p))).foldl (fun lk p => lk.set p.1 (v p)) lk := by
  intro M
  induction M with
  | nil => intro lk; rfl
  | cons q M ih =>
    intro lk
    by_cases hq : P q
    · simp [List.filter_cons, hq, ih]
    · simp [List.filter_cons, hq, ih]

lemma setfold_length : ∀ (M : List (Nat × Nat)) (lk : List Int),
    (M.foldl (fun lk p => lk.set p.1 (v p)) lk).length = lk.length := by
  intro M
  induction M with
  | nil => intro lk; rfl
  | cons q M ih => intro lk; rw [List.foldl_cons, ih]; simp

lemma setfold_getElem?_of_not_mem : ∀ (M : List (Nat × Nat)) (lk : List Int) (r : Nat),
    (∀ p ∈ M, p.1 ≠ r) →
    (M.foldl (fun lk p => lk.set p.1 (v p)) lk)[r]? = lk[r]? := by
  intro M
  induction M with
  | nil => intro lk r _; rfl
  | cons q M ih =>
    intro lk r h
    rw [List.foldl_cons, ih _ _ (fun p hp => h p (List.mem_cons_of_mem _ hp))]
    exact List.getElem?_set_ne (h q (List.mem_cons_self _ _))

lemma setfold_getElem?_of_mem : ∀ (M : List (Nat × Nat)) (lk : List Int) (p : Nat × Nat),
    (M.map Prod.fst).Nodup → p ∈ M → p.1 < lk.length →
    (M.foldl (fun lk p => lk.set p.1 (v p)) lk)[p.1]? = some (v p) := by
  intro M
  induction M with
  | nil => intro lk p _ hp; cases hp
  | cons q M ih =>
    intro lk p hnd hp hlen
    rw [List.map_cons, List.nodup_cons] at hnd
    rcases List.mem_cons.mp hp with rfl | hp'
    · rw [List.foldl_cons,
        setfold_getElem?_of_not_mem v M _ p.1
          (fun p' hp' hc => hnd.1 (hc ▸ List.mem_map_of_mem Prod.fst hp'))]
      exact List.getElem?_set_self hlen
    · rw [List.foldl_cons]
      exact ih _ p hnd.2 hp' (by simpa using hlen)

lemma setfold_mem : ∀ (M : List (Nat × Nat)) (lk : List Int) (x : Int),
    x ∈ M.foldl (fun lk p => lk.set p.1 (v p)) lk →
    x ∈ lk ∨ ∃ p ∈ M, x = v p := by
  intro M
  induction M with
  | nil => intro lk x hx; exact Or.inl hx
  | cons q M ih =>
    intro lk x hx
    rw [List.foldl_cons] at hx
    rcases ih _ _ hx with h | ⟨p, hp, rfl⟩
    · rcases List.mem_or_eq_of_mem_set h with h' | rfl
      · exact Or.inl h'
      · exact Or.inr ⟨q, List.mem_cons_self _ _, rfl⟩
    · exact Or.inr ⟨p, List.mem_cons_of_mem _ hp, rfl⟩

end SetFold

lemma eq_of_mem_nodup_snd {L : List (Nat × Nat)} (hnd : (L.map Prod.snd).Nodup)
    {p1 p2 : Nat × Nat} (h1 : p1 ∈ L) (h2 : p2 ∈ L) (h : p1.2 = p2.2) : p1 = p2 := by
  induction L with
  | nil => cases h1
  | cons q L ih =>
    rw [List.map_cons, List.nodup_cons] at hnd
    rcases List.mem_cons.mp h1 with rfl | h1' <;> rcases List.mem_cons.mp h2 with rfl | h2'
    · rfl
    · exfalso; apply hnd.1; rw [h]; exact List.mem_map_of_mem Prod.snd h2'
    · exfalso; apply hnd.1; rw [← h]; exact List.mem_map_of_mem Prod.snd h1'
    · exact ih hnd.2 h1' h2'

/-! ### Small getD helpers -/

lemma getD_irrel {α : Type _} (l : List α) (n : Nat) (d1 d2 : α) (h : n < l.length) :
    l.getD n d1 = l.getD n d2 := by
  rw [List.getD_eq_getElem?_getD, List.getD_eq_getElem?_getD, List.getElem?_eq_getElem h]
  rfl

lemma getD_mem {α : Type _} (l : List α) (n : Nat) (d : α) (h : n < l.length) :
    l.getD n d ∈ l := by
  rw [List.getD_eq_getElem?_getD, List.getElem?_eq_getElem h]
  exact List.getElem_mem h

lemma getD_map {α β : Type _} (f : α → β) (l : List α) (n : Nat) (d : β) (hd : α)
    (hn : n < l.length) : (l.map f).getD n d = f (l.getD n hd) := by
  rw [List.getD_eq_getElem?_getD, List.getD_eq_getElem?_getD, List.getElem?_map,
    List.getElem?_eq_getElem hn]
  rfl

/-! ### Properties of linkingCore -/

lemma linkingCore_inv {τ : ℚ} {n0 n1 : Nat} {W : List (List IoUVal)} {link : List Int}
    (h : linkingCore τ n0 n1 W = some link) :
    (filteredWeight τ n1 W).any (fun row => row.any isNan) = false ∧
    link = (bestMatching (Qof τ n1 W)).foldl
      (fun lk p =>
        if τ ≤ ((Qof τ n1 W).getD p.1 []).getD p.2 0 then
          lk.set p.1 (Int.ofNat ((availCols τ n1 W).getD p.2 0))
        else lk)
      (List.replicate n0 (-1 : Int)) := by
  unfold linkingCore at h
  split at h
  · exact absurd h (by simp)
  · split at h
    · exact absurd h (by simp)
    · next hnan => exact ⟨by simpa using hnan, (Option.some.inj h).symm⟩

lemma availCols_lt {τ : ℚ} {n1 : Nat} {W : List (List IoUVal)} {j : Nat}
    (hj : j ∈ availCols τ n1 W) : j < n1 :=
  List.mem_range.mp (List.mem_of_mem_filter hj)

lemma availCols_nodup (τ : ℚ) (n1 : Nat) (W : List (List IoUVal)) :
    (availCols τ n1 W).Nodup :=
  (List.nodup_range n1).filter _

lemma availCols_keep {τ : ℚ} {n1 : Nat} {W : List (List IoUVal)} {j : Nat}
    (hj : j ∈ availCols τ n1 W) : npLt (colMax W j) τ = false := by
  have := List.of_mem_filter hj
  simpa using this

lemma Qof_length (τ : ℚ) (n1 : Nat) (W : List (List IoUVal)) :
    (Qof τ n1 W).length = W.length := by
  simp [Qof, filteredWeight]

lemma Qof_head_length {τ : ℚ} {n1 : Nat} {W : List (List IoUVal)} (hW : W ≠ []) :
    ((Qof τ n1 W).headD []).length = (availCols τ n1 W).length := by
  cases W with
  | nil => exact absurd rfl hW
  | cons row rows => simp [Qof, filteredWeight]

lemma bestMatching_nil : bestMatching ([] : List (List ℚ)) = [] := by decide

lemma Qof_entry {τ : ℚ} {n1 : Nat} {W : List (List IoUVal)} {r c : Nat}
    (hr : r < W.length) (hc : c < (availCols τ n1 W).length) :
    ((Qof τ n1 W).getD r []).getD c 0
      = toQ ((W.getD r []).getD ((availCols τ n1 W).getD c 0) (IoUVal.val 0)) := by
  have hrf : r < (filteredWeight τ n1 W).length := by simpa [filteredWeight] using hr
  rw [show Qof τ n1 W = (filteredWeight τ n1 W).map (fun row => row.map toQ) from rfl]
  rw [getD_map (fun row => row.map toQ) _ r [] [] hrf]
  rw [show filteredWeight τ n1 W
      = W.map (fun row => (availCols τ n1 W).map (fun j => row.getD j (IoUVal.val 0))) from rfl]
  rw [getD_map _ _ r [] [] hr]
  have hc' : c < ((availCols τ n1 W).map
      (fun j => (W.getD r []).getD j (IoUVal.val 0))).length := by simpa using hc
  rw [getD_map toQ _ c 0 (IoUVal.val 0) hc']
  rw [getD_map _ _ c (IoUVal.val 0) 0 hc]

lemma filteredWeight_entry_mem {τ : ℚ} {n1 : Nat} {W : List (List IoUVal)}
    {row : List IoUVal} (hrow : row ∈ W) {j : Nat} (hj : j ∈ availCols τ n1 W) :
    ∃ frow ∈ filteredWeight τ n1 W, row.getD j (IoUVal.val 0) ∈ frow := by
  refine ⟨(availCols τ n1 W).map (fun j => row.getD j (IoUVal.val 0)), ?_, ?_⟩
  · exact List.mem_map_of_mem _ hrow
  · exact List.mem_map_of_mem _ hj

lemma no_nan_of_check {τ : ℚ} {n1 : Nat} {W : List (List IoUVal)}
    (hnan : (filteredWeight τ n1 W).any (fun row => row.any isNan) = false)
    {row : List IoUVal} (hrow : row ∈ W) {j : Nat} (hj : j ∈ availCols τ n1 W) :
    isNan (row.getD j (IoUVal.val 0)) = false := by
  obtain ⟨frow, hf, hmem⟩ := filteredWeight_entry_mem hrow hj
  rw [List.any_eq_false] at hnan
  have h2 := hnan frow hf
  rw [Bool.not_eq_true, List.any_eq_false] at h2
  simpa using h2 _ hmem

lemma foldl_npMax_nan : ∀ (xs : List IoUVal) (x : IoUVal),
    xs.foldl npMax x = IoUVal.nan → x = IoUVal.nan ∨ IoUVal.nan ∈ xs := by
  intro xs
  induction xs with
  | nil => intro x h; exact Or.inl h
  | cons y ys ih =>
    intro x h
    rw [List.foldl_cons] at h
    rcases ih _ h with h2 | h2
    · have : x = IoUVal.nan ∨ y = IoUVal.nan := by
        cases x <;> cases y <;> simp_all [npMax]
      rcases this with h3 | h3
      · exact Or.inl h3
      · exact Or.inr (h3 ▸ List.mem_cons_self _ _)
    · exact Or.inr (List.mem_cons_of_mem _ h2)

lemma colMax_nan {W : List (List IoUVal)} {j : Nat} (h : colMax W j = IoUVal.nan) :
    ∃ row ∈ W, row.getD j (IoUVal.val 0) = IoUVal.nan := by
  unfold colMax at h
  rcases hmap : W.map (fun row => row.getD j (IoUVal.val 0)) with _ | ⟨x, xs⟩
  · rw [hmap] at h; simp at h
  · rw [hmap] at h
    simp only at h
    have hx : x = IoUVal.nan ∨ IoUVal.nan ∈ xs := foldl_npMax_nan xs x h
    have : IoUVal.nan ∈ W.map (fun row => row.getD j (IoUVal.val 0)) := by
      rw [hmap]
      rcases hx with rfl | hx
      · exact List.mem_cons_self _ _
      · exact List.mem_cons_of_mem _ hx
    obtain ⟨row, hrow, hval⟩ := List.mem_map.mp this
    exact ⟨row, hrow, hval⟩

lemma colMax_ge {τ : ℚ} {n1 : Nat} {W : List (List IoUVal)} {j : Nat}
    (hnan : (filteredWeight τ n1 W).any (fun row => row.any isNan) = false)
    (hj : j ∈ availCols τ n1 W) :
    isNan (colMax W j) = false ∧ τ ≤ toQ (colMax W j) := by
  have hkeep := availCols_keep hj
  cases hcm : colMax W j with
  | nan =>
    obtain ⟨row, hrow, hval⟩ := colMax_nan hcm
    have := no_nan_of_check hnan hrow hj
    rw [hval] at this
    simp [isNan] at this
  | val q =>
    rw [hcm] at hkeep
    simp only [npLt] at hkeep
    rw [decide_eq_false_iff_not] at hkeep
    exact ⟨rfl, by simpa [toQ] using not_lt.mp hkeep⟩

/-- Master property lemma for `linkingCore`: every successfully returned link
vector has length `n0`, its entries are the sentinel or surviving column
indices below `n1`, it is injective on non-sentinel values, and every accepted
match passed both the column pre-filter and the `>= τ` re-check. -/
lemma linkingCore_props {τ : ℚ} {n0 n1 : Nat} {W : List (List IoUVal)} {link : List Int}
    (h : linkingCore τ n0 n1 W = some link) :
    link.length = n0 ∧
    (∀ x ∈ link, x = -1 ∨ ∃ j, j < n1 ∧ x = Int.ofNat j) ∧
    (∀ r1 r2 j, link.getD r1 (-2) = Int.ofNat j → link.getD r2 (-2) = Int.ofNat j → r1 = r2) ∧
    (∀ r j, link.getD r (-2) = Int.ofNat j →
      r < W.length ∧ j ∈ availCols τ n1 W ∧
      isNan ((W.getD r []).getD j (IoUVal.val 0)) = false ∧
      τ ≤ toQ ((W.getD r []).getD j (IoUVal.val 0)) ∧
      isNan (colMax W j) = false ∧ τ ≤ toQ (colMax W j)) := by
  obtain ⟨hnan, hlink⟩ := linkingCore_inv h
  have hlink2 : link = ((bestMatching (Qof τ n1 W)).filter
      (fun p => decide (τ ≤ ((Qof τ n1 W).getD p.1 []).getD p.2 0))).foldl
      (fun lk p => lk.set p.1 (Int.ofNat ((availCols τ n1 W).getD p.2 0)))
      (List.replicate n0 (-1 : Int)) := by
    rw [hlink]
    exact foldl_ite_set_eq_filter _ _ _ _
  have hWne : ∀ p : Nat × Nat, p ∈ bestMatching (Qof τ n1 W) → W ≠ [] := by
    intro p hp hWnil
    subst hWnil
    rw [show Qof τ n1 [] = ([] : List (List ℚ)) from rfl, bestMatching_nil] at hp
    cases hp
  have hlen : link.length = n0 := by
    rw [hlink2, setfold_length]
    simp
  have hfstnd : (((bestMatching (Qof τ n1 W)).filter
      (fun p => decide (τ ≤ ((Qof τ n1 W).getD p.1 []).getD p.2 0))).map Prod.fst).Nodup :=
    ((List.filter_sublist _).map Prod.fst).nodup (bestMatching_spec _).1
  have hsndnd : (((bestMatching (Qof τ n1 W)).filter
      (fun p => decide (τ ≤ ((Qof τ n1 W).getD p.1 []).getD p.2 0))).map Prod.snd).Nodup :=
    ((List.filter_sublist _).map Prod.snd).nodup (bestMatching_spec _).2.1
  have hcolbound : ∀ p : Nat × Nat, p ∈ bestMatching (Qof τ n1 W) →
      p.1 < W.length ∧ p.2 < (availCols τ n1 W).length := by
    intro p hp
    have hb := (bestMatching_spec (Qof τ n1 W)).2.2 p hp
    refine ⟨by rw [← Qof_length τ n1 W]; exact hb.1, ?_⟩
    rw [← Qof_head_length (hWne p hp)]
    exact hb.2
  have hent : ∀ x ∈ link, x = -1 ∨ ∃ j, j < n1 ∧ x = Int.ofNat j := by
    intro x hx
    rw [hlink2] at hx
    rcases setfold_mem _ _ _ _ hx with hmem | ⟨p, hp, rfl⟩
    · exact Or.inl (List.eq_of_mem_replicate hmem)
    · right
      have hpM := List.mem_of_mem_filter hp
      have hc := (hcolbound p hpM).2
      exact ⟨(availCols τ n1 W).getD p.2 0, availCols_lt (getD_mem _ _ _ hc), rfl⟩
  have hchar : ∀ r j : Nat, link.getD r (-2) = Int.ofNat j →
      ∃ p ∈ (bestMatching (Qof τ n1 W)).filter
        (fun p => decide (τ ≤ ((Qof τ n1 W).getD p.1 []).getD p.2 0)),
        p.1 = r ∧ Int.ofNat ((availCols τ n1 W).getD p.2 0) = Int.ofNat j := by
    intro r j hrj
    by_cases hr : r < link.length
    · have hsome : link[r]? = some (Int.ofNat j) := by
        rw [List.getD_eq_getElem?_getD, List.getElem?_eq_getElem hr] at hrj
        simp only [Option.getD_some] at hrj
        rw [List.getElem?_eq_getElem hr, hrj]
      by_cases hex : ∃ p ∈ (bestMatching (Qof τ n1 W)).filter
          (fun p => decide (τ ≤ ((Qof τ n1 W).getD p.1 []).getD p.2 0)), p.1 = r
      · obtain ⟨p, hp, hpr⟩ := hex
        have hp1n0 : p.1 < n0 := by rw [hpr, ← hlen]; exact hr
        have hval := setfold_getElem?_of_mem
          (fun q => Int.ofNat ((availCols τ n1 W).getD q.2 0)) _
          (List.replicate n0 (-1 : Int)) p hfstnd hp (by simpa using hp1n0)
        have hvl : link[p.1]? = some (Int.ofNat ((availCols τ n1 W).getD p.2 0)) := by
          rw [hlink2]; exact hval
        rw [hpr, hsome] at hvl
        exact ⟨p, hp, hpr, (Option.some.inj hvl).symm⟩
      · push_neg at hex
        have hun : link[r]? = (List.replicate n0 (-1 : Int))[r]? := by
          rw [hlink2]
          exact setfold_getElem?_of_not_mem _ _ _ _ hex
        rw [hsome, List.getElem?_replicate_of_lt (by rw [← hlen]; exact hr)] at hun
        have := Option.some.inj hun
        rw [Int.ofNat_eq_natCast] at this
        exfalso; omega
    · rw [List.getD_eq_getElem?_getD,
        List.getElem?_eq_none (by omega : link.length ≤ r)] at hrj
      simp only [Option.getD_none] at hrj
      rw [Int.ofNat_eq_natCast] at hrj
      exfalso; omega
  have hinj : ∀ r1 r2 j, link.getD r1 (-2) = Int.ofNat j →
      link.getD r2 (-2) = Int.ofNat j → r1 = r2 := by
    intro r1 r2 j h1 h2
    obtain ⟨p1, hp1, hp1r, hp1v⟩ := hchar r1 j h1
    obtain ⟨p2, hp2, hp2r, hp2v⟩ := hchar r2 j h2
    have hc1 := (hcolbound p1 (List.mem_of_mem_filter hp1)).2
    have hc2 := (hcolbound p2 (List.mem_of_mem_filter hp2)).2
    have hgd : (availCols τ n1 W).getD p1.2 0 = (availCols τ n1 W).getD p2.2 0 :=
      Int.ofNat.inj (hp1v.trans hp2v.symm)
    have e1 : (availCols τ n1 W).getD p1.2 0 = (availCols τ n1 W)[p1.2] := by
      rw [List.getD_eq_getElem?_getD, List.getElem?_eq_getElem hc1]; rfl
    have e2 : (availCols τ n1 W).getD p2.2 0 = (availCols τ n1 W)[p2.2] := by
      rw [List.getD_eq_getElem?_getD, List.getElem?_eq_getElem hc2]; rfl
    have hsnd : p1.2 = p2.2 :=
      (availCols_nodup τ n1 W).getElem_inj_iff.mp (by rw [← e1, ← e2]; exact hgd)
    have hpeq : p1 = p2 := eq_of_mem_nodup_snd hsndnd hp1 hp2 hsnd
    rw [← hp1r, ← hp2r, hpeq]
  have hfacts : ∀ r j, link.getD r (-2) = Int.ofNat j →
      r < W.length ∧ j ∈ availCols τ n1 W ∧
      isNan ((W.getD r []).getD j (IoUVal.val 0)) = false ∧
      τ ≤ toQ ((W.getD r []).getD j (IoUVal.val 0)) ∧
      isNan (colMax W j) = false ∧ τ ≤ toQ (colMax W j) := by
    intro r j hrj
    obtain ⟨p, hp, hpr, hpv⟩ := hchar r j hrj
    have hpM := List.mem_of_mem_filter hp
    have hr1 := (hcolbound p hpM).1
    have hc := (hcolbound p hpM).2
    have hjval : (availCols τ n1 W).getD p.2 0 = j := Int.ofNat.inj hpv
    have hjA : j ∈ availCols τ n1 W := hjval ▸ getD_mem _ _ _ hc
    have haccQ : τ ≤ ((Qof τ n1 W).getD p.1 []).getD p.2 0 := by
      have hacc := (List.mem_filter.mp hp).2
      simpa using hacc
    rw [Qof_entry hr1 hc, hjval] at haccQ
    have hrow : (W.getD p.1 []) ∈ W := getD_mem _ _ _ hr1
    have hnn : isNan ((W.getD p.1 []).getD j (IoUVal.val 0)) = false :=
      no_nan_of_check hnan hrow hjA
    have hcm := colMax_ge hnan hjA
    subst hpr
    exact ⟨hr1, hjA, hnn, haccQ, hcm.1, hcm.2⟩
  exact ⟨hlen, hent, hinj, hfacts⟩

/-! ### Integer-cast helpers -/

lemma neg_one_ne_ofNat (n : Nat) : (-1 : Int) ≠ Int.ofNat n := by
  rw [Int.ofNat_eq_natCast]; omega

lemma ofNat_not_lt_zero (n : Nat) : ¬ (Int.ofNat n < 0) := by
  rw [Int.ofNat_eq_natCast]; omega

lemma toNat_ofNat (n : Nat) : (Int.ofNat n).toNat = n := rfl

lemma getD_set_ne {α : Type _} (l : List α) (n m : Nat) (a d : α) (h : n ≠ m) :
    (l.set n a).getD m d = l.getD m d := by
  rw [List.getD_eq_getElem?_getD, List.getD_eq_getElem?_getD, List.getElem?_set_ne h]

lemma getD_set_self {α : Type _} (l : List α) (n : Nat) (a d : α) (h : n < l.length) :
    (l.set n a).getD n d = a := by
  rw [List.getD_eq_getElem?_getD, List.getElem?_set_self h]; rfl

lemma getD_replicate {α : Type _} (n : Nat) (a d : α) (t : Nat) (h : t < n) :
    (List.replicate n a).getD t d = a := by
  rw [List.getD_eq_getElem?_getD, List.getElem?_replicate_of_lt h]; rfl

lemma getD_eq_getElem {α : Type _} (l : List α) (n : Nat) (d : α) (h : n < l.length) :
    l.getD n d = l[n] := by
  rw [List.getD_eq_getElem?_getD, List.getElem?_eq_getElem h]; rfl

/-! ### Characterization of the trajectory builder -/

lemma chainLoop_length (li : List (List Int)) :
    ∀ (ts : List Nat) (traj : List Int), (chainLoop li traj ts).length = traj.length := by
  intro ts
  induction ts with
  | nil => intro traj; rfl
  | cons t rest ih =>
    intro traj
    simp only [chainLoop]
    split
    · rfl
    · rw [ih]; simp

/-- Behaviour of the chaining loop started at index `k` on a trajectory whose
entries from `k` on are all sentinel: the prefix below `k` is preserved and
from `k` on the result satisfies the stop-at-first-sentinel recurrence. -/
lemma chainLoop_spec (li : List (List Int)) (T : Nat) :
    ∀ (m k : Nat) (traj : List Int), traj.length = T → 1 ≤ k → k + m = T →
    (∀ t, k ≤ t → t < T → traj.getD t (-1) = -1) →
    (∀ t, t < k → (chainLoop li traj (List.range' k m)).getD t (-1) = traj.getD t (-1)) ∧
    (∀ t, k ≤ t → t < T →
      (chainLoop li traj (List.range' k m)).getD t (-1) =
        if (chainLoop li traj (List.range' k m)).getD (t-1) (-1) < 0 then -1
        else (li.getD (t-1) []).getD
          ((chainLoop li traj (List.range' k m)).getD (t-1) (-1)).toNat (-1)) := by
  intro m
  induction m with
  | zero =>
    intro k traj hlen hk1 hkm htail
    exact ⟨fun t ht => rfl, fun t hkt htT => absurd htT (by omega)⟩
  | succ m ih =>
    intro k traj hlen hk1 hkm htail
    rw [List.range'_succ]
    simp only [chainLoop]
    by_cases hidx : traj.getD (k - 1) (-1) < 0
    · rw [if_pos hidx]
      refine ⟨fun t ht => rfl, ?_⟩
      intro t hkt htT
      rw [htail t hkt htT]
      have hcond : traj.getD (t-1) (-1) < 0 := by
        rcases Nat.eq_or_lt_of_le hkt with heq | hlt
        · rw [← heq]; exact hidx
        · rw [htail (t-1) (by omega) (by omega)]; norm_num
      rw [if_pos hcond]
    · rw [if_neg hidx]
      have hlen' : (traj.set k ((li.getD (k - 1) []).getD (traj.getD (k - 1) (-1)).toNat
          (-1))).length = T := by simp [hlen]
      have htail' : ∀ t, k + 1 ≤ t → t < T →
          (traj.set k ((li.getD (k - 1) []).getD (traj.getD (k - 1) (-1)).toNat
            (-1))).getD t (-1) = -1 := by
        intro t hkt htT
        rw [getD_set_ne _ _ _ _ _ (by omega)]
        exact htail t (by omega) htT
      obtain ⟨hpre, hrec⟩ := ih (k+1) _ hlen' (by omega) (by omega) htail'
      refine ⟨?_, ?_⟩
      · intro t ht
        rw [hpre t (by omega), getD_set_ne _ _ _ _ _ (by omega)]
      · intro t hkt htT
        rcases Nat.eq_or_lt_of_le hkt with heq | hlt
        · rw [← heq]
          have hself : (chainLoop li (traj.set k ((li.getD (k - 1) []).getD
              (traj.getD (k - 1) (-1)).toNat (-1))) (List.range' (k+1) m)).getD k (-1)
              = (li.getD (k - 1) []).getD (traj.getD (k - 1) (-1)).toNat (-1) := by
            rw [hpre k (by omega)]
            exact getD_set_self _ _ _ _ (by rw [hlen]; omega)
          have hprev : (chainLoop li (traj.set k ((li.getD (k - 1) []).getD
              (traj.getD (k - 1) (-1)).toNat (-1))) (List.range' (k+1) m)).getD (k-1) (-1)
              = traj.getD (k-1) (-1) := by
            rw [hpre (k-1) (by omega), getD_set_ne _ _ _ _ _ (by omega)]
          rw [hself, hprev, if_neg hidx]
        · exact hrec t (by omega) htT

lemma buildTraj_length (li : List (List Int)) (T t0 j0 : Nat) :
    (buildTraj li T t0 j0).length = T := by
  unfold buildTraj
  split
  · rw [chainLoop_length]; simp
  · simp

/-- The three defining properties of a built trajectory: sentinel strictly
before `t0`, the emerging leaf index at `t0`, and from `t0+1` on the
stop-at-first-sentinel chaining recurrence. -/
lemma buildTraj_spec (li : List (List Int)) (T t0 j0 : Nat) (ht0 : t0 < T) :
    (∀ t, t < t0 → (buildTraj li T t0 j0).getD t (-1) = -1) ∧
    (buildTraj li T t0 j0).getD t0 (-1) = Int.ofNat j0 ∧
    (∀ t, t0 < t → t < T → (buildTraj li T t0 j0).getD t (-1) =
      if (buildTraj li T t0 j0).getD (t-1) (-1) < 0 then -1
      else (li.getD (t-1) []).getD ((buildTraj li T t0 j0).getD (t-1) (-1)).toNat (-1)) := by
  by_cases h : t0 < T - 1
  · have hbt : buildTraj li T t0 j0 = chainLoop li
        (((List.replicate T (-1 : Int)).set t0 (Int.ofNat j0)).set (t0+1)
          ((li.getD t0 []).getD j0 (-1))) (List.range' (t0+2) (T - (t0+2))) := by
      unfold buildTraj; rw [if_pos h]
    have hlen1 : (((List.replicate T (-1 : Int)).set t0 (Int.ofNat j0)).set (t0+1)
        ((li.getD t0 []).getD j0 (-1))).length = T := by simp
    have htail1 : ∀ t, t0 + 2 ≤ t → t < T →
        (((List.replicate T (-1 : Int)).set t0 (Int.ofNat j0)).set (t0+1)
          ((li.getD t0 []).getD j0 (-1))).getD t (-1) = -1 := by
      intro t h1 h2
      rw [getD_set_ne _ _ _ _ _ (by omega), getD_set_ne _ _ _ _ _ (by omega)]
      exact getD_replicate _ _ _ _ h2
    obtain ⟨hpre, hrec⟩ := chainLoop_spec li T (T - (t0+2)) (t0+2) _ hlen1 (by omega)
      (by omega) htail1
    have hR2 : (buildTraj li T t0 j0).getD t0 (-1) = Int.ofNat j0 := by
      rw [hbt, hpre t0 (by omega), getD_set_ne _ _ _ _ _ (by omega)]
      exact getD_set_self _ _ _ _ (by simp; omega)
    refine ⟨?_, hR2, ?_⟩
    · intro t ht
      rw [hbt, hpre t (by omega), getD_set_ne _ _ _ _ _ (by omega),
        getD_set_ne _ _ _ _ _ (by omega)]
      exact getD_replicate _ _ _ _ (by omega)
    · intro t ht0t htT
      rcases Nat.lt_or_ge t (t0+2) with hlt | hge
      · have hteq : t = t0 + 1 := by omega
        subst hteq
        have hfill : (buildTraj li T t0 j0).getD (t0+1) (-1)
            = (li.getD t0 []).getD j0 (-1) := by
          rw [hbt, hpre (t0+1) (by omega)]
          exact getD_set_self _ _ _ _ (by simp; omega)
        have hprev : (buildTraj li T t0 j0).getD (t0+1-1) (-1) = Int.ofNat j0 := by
          simpa using hR2
        rw [hfill, hprev, if_neg (ofNat_not_lt_zero j0), toNat_ofNat]
        simp
      · have := hrec t hge htT
        rw [hbt]
        exact this
  · have ht0T : t0 = T - 1 := by omega
    have hbt : buildTraj li T t0 j0 = (List.replicate T (-1 : Int)).set t0 (Int.ofNat j0) := by
      unfold buildTraj; rw [if_neg h]
    refine ⟨?_, ?_, ?_⟩
    · intro t ht
      rw [hbt, getD_set_ne _ _ _ _ _ (by omega)]
      exact getD_replicate _ _ _ _ (by omega)
    · rw [hbt]
      exact getD_set_self _ _ _ _ (by simp; omega)
    · intro t ht0t htT
      exact absurd htT (by omega)

/-- From the emergence frame on, a sentinel entry is followed only by
sentinel entries. -/
lemma buildTraj_sentinel_persist (li : List (List Int)) (T t0 j0 : Nat) (ht0 : t0 < T) :
    ∀ t t', t0 ≤ t → (buildTraj li T t0 j0).getD t (-1) = -1 → t < t' → t' < T →
    (buildTraj li T t0 j0).getD t' (-1) = -1 := by
  obtain ⟨hR1, hR2, hR3⟩ := buildTraj_spec li T t0 j0 ht0
  intro t t' ht0t hsent
  induction t' using Nat.strong_induction_on with
  | _ t' ih =>
    intro htt' ht'T
    have hrec := hR3 t' (by omega) ht'T
    have hprev : (buildTraj li T t0 j0).getD (t'-1) (-1) = -1 := by
      rcases Nat.eq_or_lt_of_le (show t ≤ t' - 1 by omega) with heq | hlt2
      · rw [← heq]; exact hsent
      · exact ih (t'-1) (by omega) (by omega) (by omega)
    rw [hrec, hprev]
    norm_num

/-- Validity of a completed link table against the per-frame leaf counts:
`link_info[t]` has length `num_leaves[t]` and every entry is the sentinel or a
leaf index of frame `t+1`.  This is what `linking` guarantees (see
`linkingCore_props`). -/
def ValidLinks (nl : List Nat) (li : List (List Int)) : Prop :=
  li.length = nl.length - 1 ∧
  ∀ t, t < li.length →
    (li.getD t []).length = nl.getD t 0 ∧
    ∀ x ∈ li.getD t [], x = -1 ∨ ∃ j, j < nl.getD (t+1) 0 ∧ x = Int.ofNat j

/-- One-to-one linking: no two rows of any `link_info[t]` carry the same
non-sentinel target. -/
def InjLinks (li : List (List Int)) : Prop :=
  ∀ t r1 r2 j, (li.getD t []).getD r1 (-2) = Int.ofNat j →
    (li.getD t []).getD r2 (-2) = Int.ofNat j → r1 = r2

/-- Every non-sentinel entry of a built trajectory is a leaf index of its
frame. -/
lemma buildTraj_val_bound {nl : List Nat} {li : List (List Int)} (hv : ValidLinks nl li)
    {t0 j0 : Nat} (ht0 : t0 < nl.length) (hj0 : j0 < nl.getD t0 0) :
    ∀ t, t < nl.length → (buildTraj li nl.length t0 j0).getD t (-1) = -1 ∨
      ∃ r, r < nl.getD t 0 ∧ (buildTraj li nl.length t0 j0).getD t (-1) = Int.ofNat r := by
  obtain ⟨hR1, hR2, hR3⟩ := buildTraj_spec li nl.length t0 j0 ht0
  have hll := hv.1
  intro t
  induction t using Nat.strong_induction_on with
  | _ t ih =>
    intro htT
    rcases Nat.lt_trichotomy t t0 with h | h | h
    · exact Or.inl (hR1 t h)
    · subst h
      exact Or.inr ⟨j0, hj0, hR2⟩
    · rw [hR3 t h htT]
      by_cases hprev : (buildTraj li nl.length t0 j0).getD (t-1) (-1) < 0
      · rw [if_pos hprev]; exact Or.inl rfl
      · rw [if_neg hprev]
        rcases ih (t-1) (by omega) (by omega) with hs | ⟨r, hr, hre⟩
        · rw [hs] at hprev; exact absurd (by norm_num) hprev
        · rw [hre, toNat_ofNat]
          have ht1 : t - 1 < li.length := by omega
          obtain ⟨hrowlen, hrowent⟩ := hv.2 (t-1) ht1
          have hrlt : r < (li.getD (t-1) []).length := by rw [hrowlen]; exact hr
          have hmem : (li.getD (t-1) []).getD r (-1) ∈ li.getD (t-1) [] :=
            getD_mem _ _ _ hrlt
          rcases hrowent _ hmem with hx | ⟨j, hjb, hx⟩
          · exact Or.inl hx
          · refine Or.inr ⟨j, ?_, hx⟩
            have heq : t - 1 + 1 = t := by omega
            rwa [heq] at hjb

/-- A non-sentinel trajectory entry at frame `t` is either the identity's own
emergence `(t0, j0)` or the link-vector image of the previous entry. -/
lemma buildTraj_claim_shape {nl : List Nat} {li : List (List Int)} (hv : ValidLinks nl li)
    {t0 j0 t j : Nat} (ht0 : t0 < nl.length) (hj0 : j0 < nl.getD t0 0) (ht : t < nl.length)
    (hc : (buildTraj li nl.length t0 j0).getD t (-1) = Int.ofNat j) :
    (t = t0 ∧ j = j0) ∨
    (t0 < t ∧ ∃ r, r < nl.getD (t-1) 0 ∧
      (buildTraj li nl.length t0 j0).getD (t-1) (-1) = Int.ofNat r ∧
      (li.getD (t-1) []).getD r (-2) = Int.ofNat j) := by
  obtain ⟨hR1, hR2, hR3⟩ := buildTraj_spec li nl.length t0 j0 ht0
  rcases Nat.lt_trichotomy t t0 with h | h | h
  · rw [hR1 t h] at hc
    exact absurd hc (neg_one_ne_ofNat j)
  · subst h
    rw [hR2] at hc
    have : j0 = j := by
      rw [Int.ofNat_eq_natCast, Int.ofNat_eq_natCast] at hc
      omega
    exact Or.inl ⟨rfl, this.symm⟩
  · right
    refine ⟨h, ?_⟩
    rw [hR3 t h ht] at hc
    by_cases hprev : (buildTraj li nl.length t0 j0).getD (t-1) (-1) < 0
    · rw [if_pos hprev] at hc
      exact absurd hc (neg_one_ne_ofNat j)
    · rw [if_neg hprev] at hc
      rcases buildTraj_val_bound hv ht0 hj0 (t-1) (by omega) with hs | ⟨r, hr, hre⟩
      · rw [hs] at hprev; exact absurd (by norm_num) hprev
      · refine ⟨r, hr, hre, ?_⟩
        rw [hre, toNat_ofNat] at hc
        have ht1 : t - 1 < li.length := by
          have := hv.1; omega
        have hrlt : r < (li.getD (t-1) []).length := by
          rw [(hv.2 (t-1) ht1).1]; exact hr
        rw [← getD_irrel _ _ (-1) _ hrlt]
        exact hc

/-- Chaining one step forward from a non-sentinel entry. -/
lemma buildTraj_extend {li : List (List Int)} {T t0 j0 t r : Nat} (ht0 : t0 < T)
    (htT : t + 1 < T)
    (hprev : (buildTraj li T t0 j0).getD t (-1) = Int.ofNat r) :
    (buildTraj li T t0 j0).getD (t+1) (-1) = (li.getD t []).getD r (-1) := by
  obtain ⟨hR1, hR2, hR3⟩ := buildTraj_spec li T t0 j0 ht0
  have ht0t : t0 ≤ t := by
    by_contra hlt
    rw [hR1 t (by omega)] at hprev
    exact (neg_one_ne_ofNat r) hprev
  have hrec := hR3 (t+1) (by omega) htT
  rw [Nat.add_sub_cancel] at hrec
  rw [hrec, hprev, if_neg (ofNat_not_lt_zero r), toNat_ofNat]

/-! ### Equality of the built trajectories with the spec-side recurrence -/

lemma buildTraj_eq_specTrajVal (li : List (List Int)) (T t0 j0 : Nat) (ht0 : t0 < T) :
    ∀ t, t < T → (buildTraj li T t0 j0).getD t (-1) = specTrajVal li t0 j0 t := by
  obtain ⟨hR1, hR2, hR3⟩ := buildTraj_spec li T t0 j0 ht0
  intro t
  induction t using Nat.strong_induction_on with
  | _ t ih =>
    intro htT
    rcases Nat.lt_trichotomy t t0 with h | h | h
    · rw [hR1 t h]
      cases t with
      | zero => rw [specTrajVal, if_neg (by omega)]
      | succ s => rw [specTrajVal, if_pos h]
    · subst h
      rw [hR2]
      cases t with
      | zero => rw [specTrajVal, if_pos rfl]
      | succ s => rw [specTrajVal, if_neg (by omega), if_pos rfl]
    · cases t with
      | zero => omega
      | succ s =>
        rw [hR3 (s+1) h htT]
        simp only [Nat.add_sub_cancel]
        rw [ih s (by omega) (by omega)]
        rw [specTrajVal, if_neg (show ¬ (s+1 < t0) by omega),
          if_neg (show ¬ (s+1 = t0) by omega)]

lemma newLeaves_eq_spec (nl : List Nat) (li : List (List Int)) (t : Nat) :
    newLeaves nl li t = specNewLeaves nl li t := by
  unfold newLeaves specNewLeaves available_leaves
  by_cases h : t = 0
  · rw [if_pos h, if_pos h]
  · rw [if_neg h, if_neg h]
    apply List.filter_congr
    intro i _
    rw [Bool.eq_iff_iff]
    simp only [decide_eq_true_eq, List.all_eq_true, decide_eq_true_eq]
    constructor
    · intro hnm x hx heq
      exact hnm (heq ▸ hx)
    · intro hall hmem
      exact hall _ hmem rfl

lemma emergences_eq_spec (nl : List Nat) (li : List (List Int)) :
    emergences nl li = specEmergences nl li := by
  unfold emergences specEmergences
  simp only [newLeaves_eq_spec]

/-- Claim C5 core: the flattened trajectory table built by `get_series` is
exactly the table described by the spec's Trajectory Builder algorithm. -/
lemma get_series_eq_specSeries (nl : List Nat) (li : List (List Int)) :
    get_series nl li = specSeries nl li := by
  unfold get_series specSeries
  rw [emergences_eq_spec]
  apply List.map_congr_left
  intro p hp
  have hp1 : p.1 < nl.length := by
    rw [← emergences_eq_spec] at hp
    unfold emergences at hp
    obtain ⟨t, ht, hmem⟩ := List.mem_flatMap.mp hp
    obtain ⟨j, _, rfl⟩ := List.mem_map.mp hmem
    exact List.mem_range.mp ht
  apply List.ext_getElem
  · rw [buildTraj_length]; simp
  · intro i h1 h2
    have hiT : i < nl.length := by rw [← buildTraj_length li nl.length p.1 p.2]; exact h1
    have := buildTraj_eq_specTrajVal li nl.length p.1 p.2 hp1 i hiT
    rw [getD_eq_getElem _ _ _ h1] at this
    rw [this]
    simp

/-! ### Structure of the emergence list -/

lemma newLeaves_zero (nl : List Nat) (li : List (List Int)) (j : Nat) :
    j ∈ newLeaves nl li 0 ↔ j < nl.getD 0 0 := by
  simp [newLeaves, available_leaves]

lemma newLeaves_succ (nl : List Nat) (li : List (List Int)) {t : Nat} (ht : t ≠ 0) (j : Nat) :
    j ∈ newLeaves nl li t ↔ j < nl.getD t 0 ∧ Int.ofNat j ∉ li.getD (t-1) [] := by
  simp [newLeaves, ht, available_leaves, List.mem_filter]

lemma newLeaves_nodup (nl : List Nat) (li : List (List Int)) (t : Nat) :
    (newLeaves nl li t).Nodup := by
  unfold newLeaves available_leaves
  split
  · exact List.nodup_range _
  · exact (List.nodup_range _).filter _

lemma emergences_nodup (nl : List Nat) (li : List (List Int)) :
    (emergences nl li).Nodup := by
  unfold emergences
  rw [List.nodup_flatMap]
  constructor
  · intro t _
    exact (newLeaves_nodup nl li t).map (fun a b hab => by simpa using hab)
  · apply List.Pairwise.imp ?_ (List.pairwise_lt_range _)
    intro a b hab x hx1 hx2
    obtain ⟨j1, _, rfl⟩ := List.mem_map.mp hx1
    obtain ⟨j2, _, he⟩ := List.mem_map.mp hx2
    have : b = a := congrArg Prod.fst he
    omega

lemma emergences_mem (nl : List Nat) (li : List (List Int)) (p : Nat × Nat) :
    p ∈ emergences nl li ↔ p.1 < nl.length ∧ p.2 ∈ newLeaves nl li p.1 := by
  unfold emergences
  rw [List.mem_flatMap]
  constructor
  · rintro ⟨t, ht, hm⟩
    obtain ⟨j, hj, rfl⟩ := List.mem_map.mp hm
    exact ⟨List.mem_range.mp ht, hj⟩
  · rintro ⟨h1, h2⟩
    exact ⟨p.1, List.mem_range.mpr h1, List.mem_map.mpr ⟨p.2, h2, rfl⟩⟩

lemma emergences_facts {nl : List Nat} {li : List (List Int)} {p : Nat × Nat}
    (hp : p ∈ emergences nl li) :
    p.1 < nl.length ∧ p.2 < nl.getD p.1 0 ∧
    (p.1 ≠ 0 → Int.ofNat p.2 ∉ li.getD (p.1 - 1) []) := by
  obtain ⟨h1, h2⟩ := (emergences_mem nl li p).mp hp
  by_cases h0 : p.1 = 0
  · refine ⟨h1, ?_, fun hne => absurd h0 hne⟩
    rw [h0]
    rw [h0] at h2
    exact (newLeaves_zero nl li p.2).mp h2
  · obtain ⟨hb, hnm⟩ := (newLeaves_succ nl li h0 p.2).mp h2
    exact ⟨h1, hb, fun _ => hnm⟩

lemma emergences_getD_inj {nl : List Nat} {li : List (List Int)} {i1 i2 : Nat}
    (h1 : i1 < (emergences nl li).length) (h2 : i2 < (emergences nl li).length)
    (he : (emergences nl li).getD i1 (0, 0) = (emergences nl li).getD i2 (0, 0)) :
    i1 = i2 := by
  rw [getD_eq_getElem _ _ _ h1, getD_eq_getElem _ _ _ h2] at he
  exact (emergences_nodup nl li).getElem_inj_iff.mp he

lemma get_series_getD {nl : List Nat} {li : List (List Int)} {i : Nat}
    (hi : i < (emergences nl li).length) :
    (get_series nl li).getD i [] =
      buildTraj li nl.length ((emergences nl li).getD i (0, 0)).1
        ((emergences nl li).getD i (0, 0)).2 := by
  unfold get_series
  rw [getD_map _ _ i [] (0, 0) hi]

/-! ### The partition of leaves among identities -/

lemma exists_claim {nl : List Nat} {li : List (List Int)} (hv : ValidLinks nl li) :
    ∀ t, t < nl.length → ∀ j, j < nl.getD t 0 →
    ∃ i, i < (emergences nl li).length ∧
      ((get_series nl li).getD i []).getD t (-1) = Int.ofNat j := by
  intro t
  induction t using Nat.strong_induction_on with
  | _ t ih =>
    intro htT j hj
    by_cases hmem : t ≠ 0 ∧ Int.ofNat j ∈ li.getD (t-1) []
    · obtain ⟨ht0, hjm⟩ := hmem
      obtain ⟨r, hrlen, hrval⟩ := List.mem_iff_getElem.mp hjm
      have ht1 : t - 1 < li.length := by
        have := hv.1; omega
      have hrn : r < nl.getD (t-1) 0 := by
        rw [← (hv.2 (t-1) ht1).1]; exact hrlen
      obtain ⟨i, hi, hcl⟩ := ih (t-1) (by omega) (by omega) r hrn
      refine ⟨i, hi, ?_⟩
      rw [get_series_getD hi] at hcl ⊢
      have hpmem := getD_mem (emergences nl li) i (0, 0) hi
      obtain ⟨hp1, hp2, _⟩ := emergences_facts hpmem
      have hext := buildTraj_extend hp1 (show (t-1)+1 < nl.length by omega) hcl
      have heq : t - 1 + 1 = t := by omega
      rw [heq] at hext
      rw [hext, getD_eq_getElem _ _ _ hrlen]
      exact hrval
    · have hjm : j ∈ newLeaves nl li t := by
        by_cases h0 : t = 0
        · subst h0; exact (newLeaves_zero nl li j).mpr hj
        · have hni : Int.ofNat j ∉ li.getD (t-1) [] := fun hc => hmem ⟨h0, hc⟩
          exact (newLeaves_succ nl li h0 j).mpr ⟨hj, hni⟩
      have hpm : ((t, j) : Nat × Nat) ∈ emergences nl li :=
        (emergences_mem nl li (t, j)).mpr ⟨htT, hjm⟩
      obtain ⟨i, hi, hE⟩ := List.mem_iff_getElem.mp hpm
      refine ⟨i, hi, ?_⟩
      rw [get_series_getD hi]
      have hgetD : (emergences nl li).getD i (0, 0) = (t, j) := by
        rw [getD_eq_getElem _ _ _ hi]; exact hE
      rw [hgetD]
      exact (buildTraj_spec li nl.length t j htT).2.1

lemma unique_claim {nl : List Nat} {li : List (List Int)} (hv : ValidLinks nl li)
    (hinj : InjLinks li) :
    ∀ t, t < nl.length → ∀ j i1 i2,
      i1 < (emergences nl li).length →
      ((get_series nl li).getD i1 []).getD t (-1) = Int.ofNat j →
      i2 < (emergences nl li).length →
      ((get_series nl li).getD i2 []).getD t (-1) = Int.ofNat j →
      i1 = i2 := by
  intro t
  induction t using Nat.strong_induction_on with
  | _ t ih =>
    intro htT j i1 i2 hi1 hc1 hi2 hc2
    rw [get_series_getD hi1] at hc1
    rw [get_series_getD hi2] at hc2
    have hp1mem := getD_mem (emergences nl li) i1 (0, 0) hi1
    have hp2mem := getD_mem (emergences nl li) i2 (0, 0) hi2
    obtain ⟨h11, h12, h13⟩ := emergences_facts hp1mem
    obtain ⟨h21, h22, h23⟩ := emergences_facts hp2mem
    have hs1 := buildTraj_claim_shape hv h11 h12 htT hc1
    have hs2 := buildTraj_claim_shape hv h21 h22 htT hc2
    rcases hs1 with ⟨he1t, he1j⟩ | ⟨hlt1, r1, hr1, hprev1, hli1⟩ <;>
      rcases hs2 with ⟨he2t, he2j⟩ | ⟨hlt2, r2, hr2, hprev2, hli2⟩
    · apply emergences_getD_inj hi1 hi2
      have e1 : (emergences nl li).getD i1 (0, 0) = (t, j) := by
        rw [Prod.ext_iff]; exact ⟨he1t.symm, he1j.symm⟩
      have e2 : (emergences nl li).getD i2 (0, 0) = (t, j) := by
        rw [Prod.ext_iff]; exact ⟨he2t.symm, he2j.symm⟩
      rw [e1, e2]
    · exfalso
      by_cases h0 : t = 0
      · omega
      · have hnm := h13 (by omega)
        apply hnm
        rw [← he1t, ← he1j]
        have ht1 : t - 1 < li.length := by have := hv.1; omega
        have hr2len : r2 < (li.getD (t-1) []).length := by
          rw [(hv.2 (t-1) ht1).1]; exact hr2
        have hmem2 := getD_mem (li.getD (t-1) []) r2 (-2) hr2len
        rw [hli2] at hmem2
        exact hmem2
    · exfalso
      by_cases h0 : t = 0
      · omega
      · have hnm := h23 (by omega)
        apply hnm
        rw [← he2t, ← he2j]
        have ht1 : t - 1 < li.length := by have := hv.1; omega
        have hr1len : r1 < (li.getD (t-1) []).length := by
          rw [(hv.2 (t-1) ht1).1]; exact hr1
        have hmem1 := getD_mem (li.getD (t-1) []) r1 (-2) hr1len
        rw [hli1] at hmem1
        exact hmem1
    · have hreq : r1 = r2 := hinj (t-1) r1 r2 j hli1 hli2
      subst hreq
      exact ih (t-1) (by omega) (by omega) r1 i1 i2 hi1
        (by rw [get_series_getD hi1]; exact hprev1) hi2
        (by rw [get_series_getD hi2]; exact hprev2)

/-- Partition claim: under a valid, one-to-one link table, every leaf index of
every frame is claimed by exactly one identity's trajectory at that frame. -/
lemma partition_claim {nl : List Nat} {li : List (List Int)} (hv : ValidLinks nl li)
    (hinj : InjLinks li) {t : Nat} (ht : t < nl.length) {j : Nat} (hj : j < nl.getD t 0) :
    ∃! i, i < (emergences nl li).length ∧
      ((get_series nl li).getD i []).getD t (-1) = Int.ofNat j := by
  obtain ⟨i, hi, hc⟩ := exists_claim hv t ht j hj
  refine ⟨i, ⟨hi, hc⟩, ?_⟩
  rintro y ⟨hy, hyc⟩
  exact unique_claim hv hinj t ht j y i hy hyc hi hc

/-! ### Running the pipeline -/

lemma overlaps_shape {m1 m2 : MaskSet} {Wm : List (List IoUVal)}
    (h : _compute_overlaps_masks m1 m2 = some Wm) :
    Wm.length = m1.masks.length ∧ ∀ row ∈ Wm, row.length = m2.masks.length := by
  unfold _compute_overlaps_masks at h
  split at h
  · next hc =>
    have hW := Option.some.inj h
    constructor
    · rw [← hW]; simp
    · intro row hrow
      rw [← hW] at hrow
      have hrow' := List.eq_of_mem_replicate hrow
      subst hrow'
      rcases hc with h1 | h2
      · rw [h1] at hrow; cases hrow
      · rw [h2]; rfl
  · split at h
    · cases h
    · have hW := Option.some.inj h
      constructor
      · rw [← hW]; simp
      · intro row hrow
        rw [← hW] at hrow
        obtain ⟨mi, _, rfl⟩ := List.mem_map.mp hrow
        simp

lemma linking_inv {pd : PlantData} {t0 : Nat} {pd' : PlantData}
    (h : linking pd t0 = some pd') :
    ∃ W link,
      _compute_overlaps_masks (pd.masks.getD t0 ⟨0, 0, []⟩)
        (pd.masks.getD (t0+1) ⟨0, 0, []⟩) = some W ∧
      linkingCore (mkRat 1 5) (available_leaves pd.num_leaves t0).length
        (available_leaves pd.num_leaves (t0+1)).length W = some link ∧
      pd' = { pd with link_info := pd.link_info.set t0 link } := by
  unfold linking at h
  split at h
  · cases h
  · next W hW =>
    split at h
    · cases h
    · next link hL =>
      exact ⟨W, link, hW, hL, (Option.some.inj h).symm⟩

lemma foldl_bind_none (L : List Nat) :
    L.foldl (fun acc t0 => acc.bind (fun s => linking s t0)) none = none := by
  induction L with
  | nil => rfl
  | cons s L ih => simp only [List.foldl_cons, Option.none_bind]; exact ih

lemma runLinking_foldl {frames : List MaskSet} {nl : List Nat} :
    ∀ (L : List Nat) (pd pd' : PlantData),
    pd.masks = frames → pd.num_leaves = nl →
    (L.foldl (fun acc t0 => acc.bind (fun s => linking s t0)) (some pd)) = some pd' →
    pd'.masks = frames ∧ pd'.num_leaves = nl ∧ pd'.weights = pd.weights ∧
    pd'.link_info.length = pd.link_info.length ∧
    (∀ t0, t0 ∉ L → pd'.link_info.getD t0 [] = pd.link_info.getD t0 []) ∧
    (∀ t0 ∈ L, t0 < pd.link_info.length → ∃ W link,
      _compute_overlaps_masks (frames.getD t0 ⟨0, 0, []⟩)
        (frames.getD (t0+1) ⟨0, 0, []⟩) = some W ∧
      linkingCore (mkRat 1 5) (available_leaves nl t0).length
        (available_leaves nl (t0+1)).length W = some link ∧
      pd'.link_info.getD t0 [] = link) := by
  intro L
  induction L with
  | nil =>
    intro pd pd' hm hn h
    simp only [List.foldl_nil] at h
    have := Option.some.inj h
    subst this
    exact ⟨hm, hn, rfl, rfl, fun t0 _ => rfl, fun t0 ht0 => absurd ht0 (List.not_mem_nil t0)⟩
  | cons s L' ih =>
    intro pd pd' hm hn h
    rw [List.foldl_cons, Option.some_bind] at h
    cases hstep : linking pd s with
    | none =>
      rw [hstep, foldl_bind_none] at h
      cases h
    | some pd1 =>
      rw [hstep] at h
      obtain ⟨W, link, hW, hL, hpd1⟩ := linking_inv hstep
      have hm1 : pd1.masks = frames := by rw [hpd1]; exact hm
      have hn1 : pd1.num_leaves = nl := by rw [hpd1]; exact hn
      obtain ⟨cm, cn, cw, clen, cunch, cgood⟩ := ih pd1 pd' hm1 hn1 h
      have hlen1 : pd1.link_info.length = pd.link_info.length := by
        rw [hpd1]; simp
      refine ⟨cm, cn, ?_, ?_, ?_, ?_⟩
      · rw [cw, hpd1]
      · rw [clen, hlen1]
      · intro t0 ht0
        have ht0L' : t0 ∉ L' := fun hc => ht0 (List.mem_cons_of_mem _ hc)
        have ht0s : t0 ≠ s := fun hc => ht0 (hc ▸ List.mem_cons_self _ _)
        rw [cunch t0 ht0L', hpd1]
        exact getD_set_ne _ _ _ _ _ (fun hc => ht0s hc.symm)
      · intro t0 ht0mem hlt
        rcases List.mem_cons.mp ht0mem with rfl | hmem'
        · by_cases hs' : t0 ∈ L'
          · exact cgood t0 hs' (by rw [hlen1]; exact hlt)
          · rw [hm] at hW
            rw [hn] at hL
            refine ⟨W, link, hW, hL, ?_⟩
            rw [cunch t0 hs', hpd1]
            exact getD_set_self _ _ _ _ hlt
        · exact cgood t0 hmem' (by rw [hlen1]; exact hlt)

lemma pipeline_inv {frames : List MaskSet} {pd : PlantData}
    (h : pipeline frames = some pd) :
    pd.masks = frames ∧
    pd.num_leaves = frames.map (fun m => m.masks.length) ∧
    pd.weights = (List.range (pd.num_leaves.length - 1)).map
      (fun i => List.replicate (pd.num_leaves.getD i 0)
        (List.replicate (pd.num_leaves.getD (i+1) 0) (none : Option IoUVal))) ∧
    pd.link_info.length = pd.num_leaves.length - 1 ∧
    (∀ t0, t0 < pd.link_info.length → ∃ W link,
      _compute_overlaps_masks (frames.getD t0 ⟨0, 0, []⟩)
        (frames.getD (t0+1) ⟨0, 0, []⟩) = some W ∧
      linkingCore (mkRat 1 5) (available_leaves pd.num_leaves t0).length
        (available_leaves pd.num_leaves (t0+1)).length W = some link ∧
      pd.link_info.getD t0 [] = link) := by
  unfold pipeline runLinking at h
  obtain ⟨cm, cn, cw, clen, _, cgood⟩ := runLinking_foldl _ _ _ rfl rfl h
  have hnl : pd.num_leaves = frames.map (fun m => m.masks.length) := cn
  have hleni : pd.link_info.length = pd.num_leaves.length - 1 := by
    rw [clen, hnl]
    simp [initialize_linking, getmaxleaf]
  refine ⟨cm, hnl, ?_, hleni, ?_⟩
  · rw [cw, hnl]
    simp [initialize_linking, getmaxleaf]
  · intro t0 ht0
    have hrange : t0 ∈ List.range ((getmaxleaf
        { masks := frames, num_leaves := [], link_info := [], weights := [] }).num_leaves.length - 1) := by
      apply List.mem_range.mpr
      rw [hleni, hnl] at ht0
      simpa [getmaxleaf] using ht0
    have := cgood t0 (by simpa [initialize_linking, getmaxleaf] using hrange) ?_
    · obtain ⟨W, link, h1, h2, h3⟩ := this
      exact ⟨W, link, h1, by rw [← cn] at h2; exact h2, h3⟩
    · rw [hleni] at ht0
      rw [hnl] at ht0
      simp only [initialize_linking, getmaxleaf]
      simpa using ht0

lemma get_series_length (nl : List Nat) (li : List (List Int)) :
    (get_series nl li).length = (emergences nl li).length := by
  simp [get_series]

/-- The link table produced by a successful pipeline run is valid and
one-to-one. -/
lemma pipeline_valid {frames : List MaskSet} {pd : PlantData}
    (h : pipeline frames = some pd) :
    ValidLinks pd.num_leaves pd.link_info ∧ InjLinks pd.link_info := by
  obtain ⟨cm, hnl, _, hleni, hgood⟩ := pipeline_inv h
  constructor
  · refine ⟨hleni, ?_⟩
    intro t ht
    obtain ⟨W, link, hW, hL, hslot⟩ := hgood t ht
    obtain ⟨hlen, hent, _, _⟩ := linkingCore_props hL
    constructor
    · rw [hslot, hlen]
      simp [available_leaves]
    · intro x hx
      rw [hslot] at hx
      rcases hent x hx with h1 | ⟨j, hj, h2⟩
      · exact Or.inl h1
      · refine Or.inr ⟨j, ?_, h2⟩
        simpa [available_leaves] using hj
  · intro t r1 r2 j h1 h2
    by_cases ht : t < pd.link_info.length
    · obtain ⟨W, link, hW, hL, hslot⟩ := hgood t ht
      obtain ⟨_, _, hinj, _⟩ := linkingCore_props hL
      rw [hslot] at h1 h2
      exact hinj r1 r2 j h1 h2
    · have hrow : pd.link_info.getD t [] = [] := by
        rw [List.getD_eq_getElem?_getD, List.getElem?_eq_none (by omega)]
        rfl
      rw [hrow] at h1
      exact absurd h1 (by rw [show ([] : List Int).getD r1 (-2) = -2 from rfl,
        Int.ofNat_eq_natCast]; omega)

/-! ### Claim theorems -/

/-- C1: for every frame sequence processed end-to-end (linking over all
consecutive pairs, then trajectory building), every leaf index at every frame
belongs to exactly one identity's trajectory at that time coordinate: no leaf
index at frame `t` is claimed by two distinct identities, and none is left
unclaimed. -/
theorem pipeline_leaf_partition (frames : List MaskSet) (pd : PlantData)
    (h : pipeline frames = some pd) (t : Nat) (ht : t < pd.num_leaves.length)
    (j : Nat) (hj : j < pd.num_leaves.getD t 0) :
    ∃! i, i < (get_series pd.num_leaves pd.link_info).length ∧
      ((get_series pd.num_leaves pd.link_info).getD i []).getD t (-1) = Int.ofNat j := by
  obtain ⟨hv, hinj⟩ := pipeline_valid h
  have hpc := partition_claim hv hinj ht hj
  rw [get_series_length]
  exact hpc

theorem pipeline_leaf_partition_witness :
    ∃! i, i < (get_series [1, 2] [[0]]).length ∧
      ((get_series [1, 2] [[0]]).getD i []).getD 1 (-1) = Int.ofNat 1 :=
  pipeline_leaf_partition [⟨2, 1, [[1, 0]]⟩, ⟨2, 1, [[1, 0], [0, 1]]⟩]
    ⟨[⟨2, 1, [[1, 0]]⟩, ⟨2, 1, [[1, 0], [0, 1]]⟩], [1, 2], [[0]], [[[none, none]]]⟩
    (by decide) 1 (by decide) 1 (by decide)

/-- C2: for every similarity matrix of shape `n0 × n1` and every threshold,
each entry of the returned link vector is the sentinel `-1` or an index in
`[0, n1)`, and no two distinct rows are mapped to the same non-sentinel
column. -/
theorem linking_entries_valid_and_injective (τ : ℚ) (n0 n1 : Nat)
    (W : List (List IoUVal)) (link : List Int)
    (hn0 : W.length = n0) (hrows : ∀ row ∈ W, row.length = n1)
    (h : linkingCore τ n0 n1 W = some link) :
    link.length = n0 ∧
    (∀ x ∈ link, x = -1 ∨ ∃ j, j < n1 ∧ x = Int.ofNat j) ∧
    (∀ r1 r2 j, link.getD r1 (-2) = Int.ofNat j → link.getD r2 (-2) = Int.ofNat j →
      r1 = r2) := by
  obtain ⟨h1, h2, h3, _⟩ := linkingCore_props h
  exact ⟨h1, h2, h3⟩

theorem linking_entries_valid_and_injective_witness :
    ([Int.ofNat 0] : List Int).length = 1 :=
  (linking_entries_valid_and_injective (mkRat 1 5) 1 2 [[IoUVal.val 1, IoUVal.val 0]]
    [Int.ofNat 0] rfl (by decide) (by decide)).1

/-- C3: a row is matched to a column only if their similarity is at least the
threshold (the entry is a defined value `>= τ`), a candidate with similarity
exactly `τ` is accepted, and a candidate with similarity strictly below `τ`
(here `τ - 1/100`) is rejected, leaving the row at the sentinel. -/
theorem linking_threshold_boundary :
    (∀ (τ : ℚ) (n0 n1 : Nat) (W : List (List IoUVal)) (link : List Int) (r j : Nat),
      W.length = n0 → (∀ row ∈ W, row.length = n1) →
      linkingCore τ n0 n1 W = some link →
      link.getD r (-2) = Int.ofNat j →
      isNan ((W.getD r []).getD j IoUVal.nan) = false ∧
        τ ≤ toQ ((W.getD r []).getD j IoUVal.nan)) ∧
    linkingCore (mkRat 1 5) 1 1 [[IoUVal.val (mkRat 1 5)]] = some [Int.ofNat 0] ∧
    linkingCore (mkRat 1 5) 1 1 [[IoUVal.val (mkRat 19 100)]] = some [(-1 : Int)] := by
  refine ⟨?_, by decide, by decide⟩
  intro τ n0 n1 W link r j hn0 hrows h hrj
  obtain ⟨_, _, _, hfacts⟩ := linkingCore_props h
  obtain ⟨hrW, hjA, hnn, hge, _, _⟩ := hfacts r j hrj
  have hjn1 : j < n1 := availCols_lt hjA
  have hrowlen : (W.getD r []).length = n1 := hrows _ (getD_mem _ _ _ hrW)
  have hjrow : j < (W.getD r []).length := by rw [hrowlen]; exact hjn1
  rw [getD_irrel _ _ IoUVal.nan (IoUVal.val 0) hjrow]
  exact ⟨hnn, hge⟩

theorem linking_threshold_boundary_witness :
    mkRat 1 5 ≤ toQ ((([[IoUVal.val 1]] : List (List IoUVal)).getD 0 []).getD 0 IoUVal.nan) :=
  (linking_threshold_boundary.1 (mkRat 1 5) 1 1 [[IoUVal.val 1]] [Int.ofNat 0] 0 0 rfl
    (by decide) (by decide) (by decide)).2

/-- C4: a row is only ever matched to a column that survived the pre-filter,
i.e. one whose column maximum similarity is not below the threshold (so it is
a defined value `>= τ`); the assignment is solved over the surviving columns
only and re-thresholded per match. -/
theorem linking_column_prefilter (τ : ℚ) (n0 n1 : Nat) (W : List (List IoUVal))
    (link : List Int) (r j : Nat)
    (h : linkingCore τ n0 n1 W = some link)
    (hrj : link.getD r (-2) = Int.ofNat j) :
    j ∈ availCols τ n1 W ∧ npLt (colMax W j) τ = false ∧
    isNan (colMax W j) = false ∧ τ ≤ toQ (colMax W j) := by
  obtain ⟨_, _, _, hfacts⟩ := linkingCore_props h
  obtain ⟨_, hjA, _, _, hcm1, hcm2⟩ := hfacts r j hrj
  exact ⟨hjA, availCols_keep hjA, hcm1, hcm2⟩

theorem linking_column_prefilter_witness :
    0 ∈ availCols (mkRat 1 5) 2 [[IoUVal.val 1, IoUVal.val 0]] :=
  (linking_column_prefilter (mkRat 1 5) 1 2 [[IoUVal.val 1, IoUVal.val 0]]
    [Int.ofNat 0] 0 0 (by decide) (by decide)).1

/-- C5: the trajectory builder follows the spec's algorithm exactly: frame-0
leaves receive identities `0..num_leaves[0]-1` in leaf order, at each later
frame exactly the leaf indices hit by no entry of the previous link vector
receive the next identities in ascending order, and every trajectory is
sentinel before its emergence frame, the emerging leaf index at it, and then
chains through the link vectors until the first sentinel, after which it
stays sentinel. -/
theorem get_series_matches_spec_algorithm :
    ∀ (nl : List Nat) (li : List (List Int)), get_series nl li = specSeries nl li :=
  get_series_eq_specSeries

/-- C6: evaluation of the code at the failing input.  Two simultaneously
empty masks (union of size zero) make `np.divide` produce NaN: the entry is
`IoUVal.nan`, not the defined value `0` that the claim mandates. -/
theorem overlaps_zero_union_yields_nan :
    _compute_overlaps_masks ⟨1, 1, [[0]]⟩ ⟨1, 1, [[0]]⟩ = some [[IoUVal.nan]] := by
  decide

/-- C7 counterexample: in the run on one leaf in frame 0 and two leaves in
frame 1, the identity emerging at frame 1 has trajectory `[-1, 1]`: the
sentinel at time 0 is followed by a non-sentinel entry at time 1, so sentinel
persistence fails for entries before the emergence frame. -/
theorem trajectory_sentinel_before_emergence :
    pipeline [⟨2, 1, [[1, 0]]⟩, ⟨2, 1, [[1, 0], [0, 1]]⟩]
      = some ⟨[⟨2, 1, [[1, 0]]⟩, ⟨2, 1, [[1, 0], [0, 1]]⟩], [1, 2], [[0]], [[[none, none]]]⟩ ∧
    (get_series [1, 2] [[0]]).getD 1 [] = [-1, 1] ∧
    ((get_series [1, 2] [[0]]).getD 1 []).getD 0 (-1) = -1 ∧
    ((get_series [1, 2] [[0]]).getD 1 []).getD 1 (-1) ≠ -1 := by
  refine ⟨by decide, by decide, by decide, by decide⟩

/-- C7 amended: sentinel persistence holds from the emergence frame on: if a
trajectory records the sentinel at a time at or after its emergence frame,
every later entry is also the sentinel. -/
theorem trajectory_sentinel_persists_from_emergence (li : List (List Int))
    (T t0 j0 t t' : Nat) (ht0 : t0 < T) (ht0t : t0 ≤ t)
    (hs : (buildTraj li T t0 j0).getD t (-1) = -1)
    (htt' : t < t') (ht' : t' < T) :
    (buildTraj li T t0 j0).getD t' (-1) = -1 :=
  buildTraj_sentinel_persist li T t0 j0 ht0 t t' ht0t hs htt' ht'

theorem trajectory_sentinel_persists_from_emergence_witness :
    (buildTraj [[-1], [0]] 3 0 0).getD 2 (-1) = -1 :=
  trajectory_sentinel_persists_from_emergence [[-1], [0]] 3 0 0 1 2 (by decide)
    (by decide) (by decide) (by decide) (by decide)

/-- C8: evaluation of the code at the failing input.  After the full linking
pass on two overlapping one-leaf frames, the stored `weights[0]` is still the
`-inf` initialization (`none` entries) even though the IoU matrix computed
for the pair `(0, 1)` is `[[1]]`: `linking` never writes `self.weights`. -/
theorem weights_never_updated_by_linking :
    pipeline [⟨1, 1, [[1]]⟩, ⟨1, 1, [[1]]⟩]
      = some ⟨[⟨1, 1, [[1]]⟩, ⟨1, 1, [[1]]⟩], [1, 1], [[0]], [[[none]]]⟩ ∧
    _compute_overlaps_masks ⟨1, 1, [[1]]⟩ ⟨1, 1, [[1]]⟩ = some [[IoUVal.val 1]] ∧
    (PlantData.mk [⟨1, 1, [[1]]⟩, ⟨1, 1, [[1]]⟩] [1, 1] [[0]] [[[none]]]).weights.getD 0 []
      ≠ [[some (IoUVal.val 1)]] := by
  refine ⟨by decide, by decide, by decide⟩

/-- C9 counterexample: on two frames with two leaves each and no overlap, no
leaf of frame 1 has an incoming link (two newly emerged leaves), yet the
derived count `num_emergence[1] = num_leaves[1] - num_leaves[0]` is `0`. -/
theorem num_emergence_not_unlinked_count :
    pipeline [⟨4, 1, [[1, 0, 0, 0], [0, 1, 0, 0]]⟩, ⟨4, 1, [[0, 0, 1, 0], [0, 0, 0, 1]]⟩]
      = some ⟨[⟨4, 1, [[1, 0, 0, 0], [0, 1, 0, 0]]⟩, ⟨4, 1, [[0, 0, 1, 0], [0, 0, 0, 1]]⟩],
          [2, 2], [[-1, -1]], [[[none, none], [none, none]]]⟩ ∧
    (getnumemergence [2, 2]).getD 1 0 = 0 ∧
    (newLeaves [2, 2] [[-1, -1]] 1).length = 2 := by
  refine ⟨by decide, by decide, by decide⟩

/-- C9 amended: the derived per-frame count equals `num_leaves[0]` at `t = 0`
and the leaf-count difference `num_leaves[t] - num_leaves[t-1]` for `t >= 1`;
it coincides with the number of unlinked leaf indices only when every leaf of
frame `t-1` is linked. -/
theorem getnumemergence_eq_count_diff (nl : List Nat) (t : Nat) (ht : t < nl.length) :
    (getnumemergence nl).getD t 0 =
      if t = 0 then ((nl.getD 0 0 : Nat) : Int)
      else ((nl.getD t 0 : Nat) : Int) - ((nl.getD (t-1) 0 : Nat) : Int) := by
  cases nl with
  | nil => simp at ht
  | cons n0 rest =>
    cases t with
    | zero => rfl
    | succ s =>
      rw [if_neg (by omega)]
      simp only [Nat.add_sub_cancel]
      have ht' : s + 1 < rest.length + 1 := by simpa using ht
      have hL : (getnumemergence (n0 :: rest)).getD (s+1) 0
          = (((n0 :: rest).zip rest).map
              (fun p => ((p.2 : Nat) : Int) - ((p.1 : Nat) : Int))).getD s 0 := rfl
      rw [hL]
      have hs : s < ((n0 :: rest).zip rest).length := by
        rw [List.length_zip]
        simp only [List.length_cons]
        omega
      rw [getD_map _ _ s 0 ((0 : Nat), (0 : Nat)) hs]
      rw [getD_eq_getElem _ _ _ hs, List.getElem_zip]
      have e1 : ((n0 :: rest) : List Nat).getD (s+1) 0 = rest[s] := by
        rw [getD_eq_getElem _ _ _ ht]
        rfl
      have e2 : ((n0 :: rest) : List Nat).getD s 0 = (n0 :: rest)[s] :=
        getD_eq_getElem _ _ _ (by simp only [List.length_cons]; omega)
      rw [e1, e2]

theorem getnumemergence_eq_count_diff_witness :
    (getnumemergence [2, 2]).getD 1 0 =
      if (1 : Nat) = 0 then ((([2, 2] : List Nat).getD 0 0 : Nat) : Int)
      else ((([2, 2] : List Nat).getD 1 0 : Nat) : Int)
        - ((([2, 2] : List Nat).getD 0 0 : Nat) : Int) :=
  getnumemergence_eq_count_diff [2, 2] 1 (by decide)

/-- C10 counterexample: a mask containing the non-binary value `7/10` is not
rejected: the computation succeeds and silently binarizes the value with the
`> .5` threshold, yielding IoU `1` against an identical true mask. -/
theorem overlaps_accepts_nonbinary_mask :
    _compute_overlaps_masks ⟨1, 1, [[mkRat 7 10]]⟩ ⟨1, 1, [[1]]⟩
      = some [[IoUVal.val 1]] := by
  decide

/-- C10 amended: when both mask sets are nonempty, mismatched flattened pixel
counts make the computation fail immediately (the `np.dot` raises); but masks
containing non-binary values are not rejected — each value is silently
coerced by thresholding at `0.5`. -/
theorem overlaps_size_mismatch_fails_nonbinary_coerced :
    (∀ m1 m2 : MaskSet, m1.masks ≠ [] → m2.masks ≠ [] → m1.h * m1.w ≠ m2.h * m2.w →
      _compute_overlaps_masks m1 m2 = none) ∧
    _compute_overlaps_masks ⟨1, 1, [[mkRat 7 10]]⟩ ⟨1, 1, [[1]]⟩
      = some [[IoUVal.val 1]] := by
  constructor
  · intro m1 m2 h1 h2 h3
    unfold _compute_overlaps_masks
    have hc : ¬ (m1.masks.length = 0 ∨ m2.masks.length = 0) := by
      rintro (hc | hc)
      · exact h1 (List.length_eq_zero.mp hc)
      · exact h2 (List.length_eq_zero.mp hc)
    rw [if_neg hc, if_pos h3]
  · decide

theorem overlaps_size_mismatch_fails_nonbinary_coerced_witness :
    _compute_overlaps_masks ⟨1, 2, [[1, 1]]⟩ ⟨1, 1, [[1]]⟩ = none :=
  overlaps_size_mismatch_fails_nonbinary_coerced.1 ⟨1, 2, [[(1:ℚ), 1]]⟩ ⟨1, 1, [[1]]⟩
    (by decide) (by decide) (by decide)

end PlantCV
